import Mathlib

/-!
Verification development for the logtap repository.

Python strings are embedded as `List Char` (named `Str` below) so that every
operation is structurally computable.  Python truthiness of an optional string
(`None` and `""` are falsy) is embedded by `pyTruthy`.  The Python standard
`re` module is external to the repository, so the regex engine is kept
abstract: a `RegexEngine` turns a pattern string and a case-sensitivity flag
into `some searchPredicate` when compilation succeeds (the predicate embeds
the truthiness of `pattern.search(line)`, i.e. a match anywhere in the line)
and `none` when compilation raises `re.error`.  All theorems about
`filter_lines` quantify over the engine.
-/

/-- Embedding of Python `str` as a list of characters. -/
abbrev Str := List Char

/-- Python truthiness of an `Optional[str]`: `None` and `""` are falsy. -/
def pyTruthy : Option Str → Bool
  | none => false
  | some s => !s.isEmpty

/-- Python truthiness of a plain `str`: only `""` is falsy. -/
def pyTruthyS (s : Str) : Bool := !s.isEmpty

/-- Embedding of Python `str.lower()` (simple per-character lowering). -/
def lowerStr (s : Str) : Str := s.map Char.toLower

/-- Embedding of the Python substring test `needle in haystack`:
true iff `needle` occurs contiguously inside `haystack`. -/
def containsSub (haystack needle : Str) : Bool :=
  if needle.isPrefixOf haystack then true
  else
    match haystack with
    | [] => false
    | _ :: rest => containsSub rest needle

/-- Abstract model of the `re` module as used by `search.py`:
`compile pat caseSensitive` returns the search predicate of the compiled
pattern, or `none` when the pattern fails to compile. -/
structure RegexEngine where
  compile : Str → Bool → Option (Str → Bool)

/-- Embedding of `filter_lines` from `src/logtap/core/search.py`.
The body mirrors the source line by line:
`if not term and not regex: return lines`;
`if regex:` compile and keep lines where `pattern.search(line)` is truthy,
returning `[]` on `re.error`;
`if term:` substring test, lowering both sides when case-insensitive;
final `return lines`. -/
def filter_lines (eng : RegexEngine) (lines : List Str)
    (term regex : Option Str) (case_sensitive : Bool) : List Str :=
  if !pyTruthy term && !pyTruthy regex then lines
  else if pyTruthy regex then
    match eng.compile (regex.getD []) case_sensitive with
    | some search => lines.filter (fun line => search line)
    | none => []
  else if pyTruthy term then
    let t := term.getD []
    if case_sensitive then lines.filter (fun line => containsSub line t)
    else lines.filter (fun line => containsSub (lowerStr line) (lowerStr t))
  else lines

/-- Splitting a character list on a separator character; always returns one
more component than the number of separators (so it is never empty), exactly
like Python `str.split(sep)`. -/
def splitSep (sep : Char) : Str → List Str
  | [] => [[]]
  | c :: rest =>
    if c = sep then [] :: splitSep sep rest
    else
      match splitSep sep rest with
      | [] => [[c]]
      | l :: ls => (c :: l) :: ls

/-- Modelled from the spec: `logtap/core/reader.py` is absent from the
sources (only its tests and callers are present).  The logical lines of a
file's content: newline is a record terminator, so a final empty component
produced by a trailing newline is not a line, and an empty file has no
lines. -/
def fileLines (content : Str) : List Str :=
  let parts := splitSep '\n' content
  match parts.getLast? with
  | some [] => parts.dropLast
  | _ => parts

/-- Modelled from the spec: `logtap/core/reader.py` is absent from the
sources.  `tail(path, limit)` is modelled by its contract on the file's
content: the last `limit` logical lines of the file, in file order. -/
def tail (content : Str) (limit : Nat) : List Str :=
  let ls := fileLines content
  ls.drop (ls.length - limit)

/-- True iff the name begins with the path-root marker. -/
def startsWithRoot (name : Str) : Bool :=
  match name with
  | c :: _ => c = '/'
  | [] => false

/-- Modelled from the spec: `logtap/core/validation.py` is absent from the
sources.  A filename is valid unless it contains a parent-directory segment
as a path component or begins with the path-root marker; an embedded path
separator is not by itself rejected here (the route layer rejects it). -/
def is_filename_valid (name : Str) : Bool :=
  !(splitSep '/' name).contains ['.', '.'] && !startsWithRoot name

/-- Modelled from the spec: `logtap/core/validation.py` is absent from the
sources.  A search term is valid iff its length is at most 100. -/
def is_search_term_valid (term : Str) : Bool :=
  term.length ≤ 100

/-- Modelled from the spec: `logtap/core/validation.py` is absent from the
sources.  A limit is valid iff it lies in [1, 1000]. -/
def is_limit_valid (n : Nat) : Bool :=
  1 ≤ n && n ≤ 1000

/-- Modelled from the spec: `logtap/core/parsers/base.py` is absent from the
sources.  The eight syslog levels in severity order. -/
inductive LogLevel where
  | EMERGENCY | ALERT | CRITICAL | ERROR | WARNING | NOTICE | INFO | DEBUG
  deriving DecidableEq

/-- Modelled from the spec: the syslog numeric severity of a level
(0 = EMERGENCY ... 7 = DEBUG, lower is more urgent). -/
def LogLevel.severity : LogLevel → Nat
  | .EMERGENCY => 0
  | .ALERT => 1
  | .CRITICAL => 2
  | .ERROR => 3
  | .WARNING => 4
  | .NOTICE => 5
  | .INFO => 6
  | .DEBUG => 7

/-- Modelled from the spec: `LogLevel.from_string` accepts an exact numeric
string "0"-"7", a case-insensitive level name, or the alias "warn" for
WARNING; any unrecognized input yields the default INFO instead of
failing. -/
def LogLevel.from_string (s : Str) : LogLevel :=
  let t := lowerStr s
  if t = "0".toList ∨ t = "emergency".toList then .EMERGENCY
  else if t = "1".toList ∨ t = "alert".toList then .ALERT
  else if t = "2".toList ∨ t = "critical".toList then .CRITICAL
  else if t = "3".toList ∨ t = "error".toList then .ERROR
  else if t = "4".toList ∨ t = "warning".toList ∨ t = "warn".toList then .WARNING
  else if t = "5".toList ∨ t = "notice".toList then .NOTICE
  else if t = "6".toList ∨ t = "info".toList then .INFO
  else if t = "7".toList ∨ t = "debug".toList then .DEBUG
  else .INFO

/-- The lowered spellings recognized by `LogLevel.from_string`. -/
def LogLevel.recognized : List Str :=
  ["0".toList, "emergency".toList, "1".toList, "alert".toList,
   "2".toList, "critical".toList, "3".toList, "error".toList,
   "4".toList, "warning".toList, "warn".toList, "5".toList, "notice".toList,
   "6".toList, "info".toList, "7".toList, "debug".toList]

/-- The four concrete log formats, in the Auto dispatch order. -/
inductive ParserKind where
  | json | syslog | nginx | apache
  deriving DecidableEq

/-- Position of a parser in the Auto dispatch order
(Json before Syslog before Nginx before Apache). -/
def ParserKind.orderIndex : ParserKind → Nat
  | .json => 0
  | .syslog => 1
  | .nginx => 2
  | .apache => 3

/-- The `can_parse` predicates of the four concrete parsers.  The parser
modules are absent from the sources, so the predicates are kept abstract;
every theorem about `detect_format` quantifies over the family. -/
structure ParserFamily where
  jsonCan : Str → Bool
  syslogCan : Str → Bool
  nginxCan : Str → Bool
  apacheCan : Str → Bool

/-- The `can_parse` predicate of a given concrete parser. -/
def ParserFamily.canParse (P : ParserFamily) : ParserKind → Str → Bool
  | .json => P.jsonCan
  | .syslog => P.syslogCan
  | .nginx => P.nginxCan
  | .apache => P.apacheCan

/-- Number of sampled lines a parser's `can_parse` accepts. -/
def ParserFamily.tally (P : ParserFamily) (k : ParserKind) (lines : List Str) : Nat :=
  lines.countP (P.canParse k)

/-- The parser with the highest tally, ties broken toward the earlier
parser in the Auto dispatch order (a later parser wins only strictly). -/
def ParserFamily.best (P : ParserFamily) (lines : List Str) : ParserKind :=
  let pick := fun (b k : ParserKind) =>
    if P.tally b lines < P.tally k lines then k else b
  pick (pick (pick ParserKind.json ParserKind.syslog) ParserKind.nginx) ParserKind.apache

/-- Modelled from the spec: `logtap/core/parsers/auto.py` is absent from the
sources.  `detect_format` tallies each concrete parser's `can_parse` over the
sample and returns the best parser when it holds a strict majority of the
sample; it returns nothing on an empty sample or when no parser reaches a
majority. -/
def detect_format (P : ParserFamily) (lines : List Str) : Option ParserKind :=
  if lines.isEmpty then none
  else
    let b := P.best lines
    if lines.length < 2 * P.tally b lines then some b else none

/-- Embedding of Python `os.path.join(a, b)` for POSIX paths as used by the
route to build the file path. -/
def path_join (a b : Str) : Str :=
  if startsWithRoot b then b
  else if a.isEmpty then b
  else if a.getLast? = some '/' then a ++ b
  else a ++ '/' :: b

/-- The route's collaborators: settings provide the log directory, and the
filesystem maps a path to the content of the regular file there, if any
(`none` embeds `not os.path.isfile(filepath)`). -/
structure GetLogsEnv where
  log_dir : Str
  files : Str → Option Str

/-- Observable outcome of the `get_logs` route: an `HTTPException` with its
status code, or the `LogResponse` payload. -/
inductive RouteResult where
  | httpError (statusCode : Nat) : RouteResult
  | ok (lines : List Str) (count : Nat) (filename : Str) : RouteResult
  deriving DecidableEq

/-- Embedding of the `get_logs` route from `src/logtap/api/routes/logs.py`.
The validation guards, path construction, file lookup, tail read and the
regex/term dispatch into `filter_lines` mirror the source in order.  The
missing `tail_async` has the same contract as `tail` and is embedded by it. -/
def get_logs (eng : RegexEngine) (env : GetLogsEnv) (filename term : Str)
    (regex : Option Str) (limit : Nat) (case_sensitive : Bool) : RouteResult :=
  if !is_filename_valid filename then .httpError 400
  else if containsSub filename ['/'] || containsSub filename ['\\'] then .httpError 400
  else if pyTruthyS term && !is_search_term_valid term then .httpError 400
  else if !is_limit_valid limit then .httpError 400
  else
    let filepath := path_join env.log_dir filename
    match env.files filepath with
    | none => .httpError 404
    | some content =>
      let lines := tail content limit
      let result :=
        if pyTruthy regex then filter_lines eng lines none regex case_sensitive
        else if pyTruthyS term then filter_lines eng lines (some term) none case_sensitive
        else lines
      .ok result result.length filename

/-- A concrete regex engine used to instantiate the engine-parametric
theorems: a pattern beginning with an unclosed bracket fails to compile,
any other pattern compiles to a literal substring search. -/
def literalEngine : RegexEngine where
  compile := fun r _ =>
    match r with
    | '[' :: _ => none
    | _ => some (fun line => containsSub line r)

/-- A concrete parser family used to instantiate the family-parametric
theorems: each format is recognized by a distinctive leading character. -/
def sampleFamily : ParserFamily where
  jsonCan := fun l => l.headD ' ' = '\x7b'
  syslogCan := fun l => l.headD ' ' = 'J'
  nginxCan := fun l => l.headD ' ' = '1'
  apacheCan := fun l => l.headD ' ' = '2'

/-- The regex/term dispatch of the route (lines 96-100 of `logs.py`),
extracted for statement reuse. -/
def routeFilter (eng : RegexEngine) (lines : List Str) (term : Str)
    (regex : Option Str) (cs : Bool) : List Str :=
  if pyTruthy regex then filter_lines eng lines none regex cs
  else if pyTruthyS term then filter_lines eng lines (some term) none cs
  else lines

/-- A concrete environment used to instantiate the route theorems: a log
directory holding one three-line file. -/
def routeEnv : GetLogsEnv where
  log_dir := "/var/log".toList
  files := fun p =>
    if p = "/var/log/app.log".toList then some ("a\nb\nerror c".toList) else none

theorem isPrefixOf_iff_append (n : Str) : ∀ h : Str,
    List.isPrefixOf n h = true ↔ ∃ s, h = n ++ s := by
  induction n with
  | nil => intro h; simp [List.isPrefixOf]
  | cons a as ih =>
    intro h
    cases h with
    | nil =>
      simp only [List.isPrefixOf]
      constructor
      · intro hfalse; exact absurd hfalse (by simp)
      · rintro ⟨s, hs⟩; exact absurd hs (by simp)
    | cons b bs =>
      simp only [List.isPrefixOf, Bool.and_eq_true, beq_iff_eq, List.cons_append]
      constructor
      · rintro ⟨rfl, hpre⟩
        obtain ⟨s, rfl⟩ := (ih bs).mp hpre
        exact ⟨s, rfl⟩
      · rintro ⟨s, hs⟩
        injection hs with h1 h2
        exact ⟨h1.symm, (ih bs).mpr ⟨s, h2⟩⟩

theorem containsSub_iff (n : Str) : ∀ h : Str,
    containsSub h n = true ↔ ∃ p s, h = p ++ n ++ s := by
  intro h
  induction h with
  | nil =>
    rw [containsSub]
    by_cases hp : List.isPrefixOf n [] = true
    · obtain ⟨s, hs⟩ := (isPrefixOf_iff_append n []).mp hp
      rcases List.append_eq_nil.mp hs.symm with ⟨rfl, rfl⟩
      simp [hp]
    · simp only [hp, if_false]
      constructor
      · intro hfalse; exact absurd hfalse (by simp)
      · rintro ⟨p, s, hs⟩
        exact absurd ((isPrefixOf_iff_append n []).mpr
          ⟨s, by cases List.append_eq_nil.mp hs.symm with
                | intro h1 h2 => cases List.append_eq_nil.mp h1 with
                  | intro h3 h4 => simp [h3, h4, h2]⟩) hp
  | cons c rest ih =>
    rw [containsSub]
    by_cases hp : List.isPrefixOf n (c :: rest) = true
    · simp only [hp, if_true, true_iff]
      obtain ⟨s, hs⟩ := (isPrefixOf_iff_append n (c :: rest)).mp hp
      exact ⟨[], s, by simpa using hs⟩
    · rw [if_neg hp]
      rw [ih]
      constructor
      · rintro ⟨p, s, rfl⟩
        exact ⟨c :: p, s, rfl⟩
      · rintro ⟨p, s, hs⟩
        cases p with
        | nil =>
          exact absurd ((isPrefixOf_iff_append n (c :: rest)).mpr
            ⟨s, by simpa using hs⟩) hp
        | cons d ds =>
          injection hs with h1 h2
          exact ⟨ds, s, h2⟩

theorem pyTruthy_some_of_ne (r : Str) (hr : r ≠ []) : pyTruthy (some r) = true := by
  cases r with
  | nil => exact absurd rfl hr
  | cons c rest => rfl

/-- C2: `filter_lines` is the identity when no filter is given — with
neither `term` nor `regex` supplied, or with `term` the empty string and no
regex, the input lines are returned unchanged. -/
theorem filter_lines_identity (eng : RegexEngine) (lines : List Str) (cs : Bool) :
    filter_lines eng lines none none cs = lines ∧
    filter_lines eng lines (some []) none cs = lines :=
  ⟨rfl, rfl⟩

/-- C3: when a supplied regex compiles, `filter_lines` returns exactly the
input lines whose compiled search predicate (a match anywhere in the line)
holds, in original relative order, and a simultaneously supplied `term` has
no effect on the result. -/
theorem filter_lines_regex_precedence (eng : RegexEngine) (lines : List Str)
    (r : Str) (cs : Bool) (search : Str → Bool)
    (hr : r ≠ []) (hc : eng.compile r cs = some search) :
    ∀ term : Option Str,
      filter_lines eng lines term (some r) cs
        = lines.filter (fun line => search line) := by
  intro term
  have htr : pyTruthy (some r) = true := pyTruthy_some_of_ne r hr
  simp [filter_lines, htr, hc]

theorem filter_lines_regex_precedence_witness :
    filter_lines literalEngine ["error x".toList, "ok".toList]
      (some "ok".toList) (some "error".toList) true = ["error x".toList] := by
  rw [filter_lines_regex_precedence literalEngine ["error x".toList, "ok".toList]
    ("error".toList) true (fun line => containsSub line ("error".toList))
    (by decide) rfl (some "ok".toList)]
  decide

/-- C4: when a supplied regex fails to compile, `filter_lines` returns the
empty sequence — the `re.error` is swallowed, never propagated (the
embedding is a total function returning a value). -/
theorem filter_lines_invalid_regex (eng : RegexEngine) (lines : List Str)
    (term : Option Str) (r : Str) (cs : Bool)
    (hr : r ≠ []) (hc : eng.compile r cs = none) :
    filter_lines eng lines term (some r) cs = [] := by
  have htr : pyTruthy (some r) = true := pyTruthy_some_of_ne r hr
  simp [filter_lines, htr, hc]

theorem filter_lines_invalid_regex_witness :
    filter_lines literalEngine ["line 1".toList, "line 2".toList]
      none ("[invalid".toList) true = [] :=
  filter_lines_invalid_regex literalEngine ["line 1".toList, "line 2".toList]
    none ("[invalid".toList) true (by decide) rfl

/-- C5: with only a non-empty `term`, case-sensitive filtering keeps exactly
the lines containing the term as a substring, and case-insensitive filtering
lowers both the term and each line before the same substring test; the
substring test is characterized as the existence of a decomposition
`line = p ++ term ++ s`. -/
theorem filter_lines_term_substring (eng : RegexEngine) (lines : List Str)
    (t : Str) (ht : t ≠ []) :
    filter_lines eng lines (some t) none true
      = lines.filter (fun line => containsSub line t) ∧
    filter_lines eng lines (some t) none false
      = lines.filter (fun line => containsSub (lowerStr line) (lowerStr t)) ∧
    (∀ line needle : Str,
      containsSub line needle = true ↔ ∃ p s, line = p ++ needle ++ s) := by
  have htt : pyTruthy (some t) = true := pyTruthy_some_of_ne t ht
  refine ⟨?_, ?_, fun line needle => containsSub_iff needle line⟩ <;>
    simp [filter_lines, htt, pyTruthy, ht]

theorem filter_lines_term_substring_witness :
    filter_lines literalEngine ["Error: a".toList, "error: b".toList, "ok".toList]
      ("error".toList) none false = ["Error: a".toList, "error: b".toList] := by
  rw [(filter_lines_term_substring literalEngine
    ["Error: a".toList, "error: b".toList, "ok".toList]
    ("error".toList) (by decide)).2.1]
  decide

/-- C10: an empty-string regex is falsy, so it is treated as absent rather
than taking precedence — `filter_lines` behaves exactly as with no regex
(substring-term filter, or identity when the term is also empty), and the
`get_logs` route dispatches identically with an empty regex and with a
missing one. -/
theorem filter_lines_empty_regex (eng : RegexEngine) (lines : List Str)
    (term : Option Str) (cs : Bool) :
    (∀ env : GetLogsEnv, ∀ filename tm : Str, ∀ limit : Nat,
      get_logs eng env filename tm (some []) limit cs
        = get_logs eng env filename tm none limit cs) ∧
    filter_lines eng lines term (some []) cs = filter_lines eng lines term none cs ∧
    filter_lines eng lines (some []) (some []) cs = lines ∧
    filter_lines eng lines none (some []) cs = lines :=
  ⟨fun _ _ _ _ => rfl, rfl, rfl, rfl⟩

/-- C8: `is_filename_valid` rejects every name with a parent-directory
segment as a path component and every name beginning with the path-root
marker, accepts everything else (in particular a name is not rejected merely
for an embedded path separator — that rejection is the route's, which
answers 400 to any filename containing a separator), and is a total pure
predicate. -/
theorem is_filename_valid_spec :
    (∀ name : Str, ['.', '.'] ∈ splitSep '/' name → is_filename_valid name = false) ∧
    (∀ rest : Str, is_filename_valid ('/' :: rest) = false) ∧
    (∀ name : Str, ¬ ['.', '.'] ∈ splitSep '/' name → startsWithRoot name = false →
      is_filename_valid name = true) ∧
    is_filename_valid ("nginx/access.log".toList) = true ∧
    (∀ eng : RegexEngine, ∀ env : GetLogsEnv, ∀ filename term : Str,
      ∀ regex : Option Str, ∀ limit : Nat, ∀ cs : Bool,
      containsSub filename ['/'] = true →
      get_logs eng env filename term regex limit cs = RouteResult.httpError 400) := by
  refine ⟨?_, ?_, ?_, by decide, ?_⟩
  · intro name hmem
    simp [is_filename_valid, List.contains, List.elem_iff, hmem]
  · intro rest
    simp [is_filename_valid, startsWithRoot]
  · intro name hmem hroot
    simp [is_filename_valid, List.contains, List.elem_iff, hmem, hroot]
  · intro eng env filename term regex limit cs hsep
    by_cases hv : is_filename_valid filename = true
    · simp only [get_logs, hv, Bool.not_true, Bool.false_eq_true, if_false, hsep,
        Bool.true_or, if_true]
    · simp only [get_logs, Bool.not_eq_true] at hv ⊢
      simp [hv]

theorem is_filename_valid_spec_witness :
    is_filename_valid ("../etc/passwd".toList) = false ∧
    is_filename_valid ("/etc/passwd".toList) = false ∧
    is_filename_valid ("app.log.1".toList) = true :=
  ⟨is_filename_valid_spec.1 ("../etc/passwd".toList) (by decide),
   is_filename_valid_spec.2.1 ("etc/passwd".toList),
   is_filename_valid_spec.2.2.1 ("app.log.1".toList) (by decide) (by decide)⟩

/-- C6: `LogLevel.from_string` maps the exact numeric strings "0"-"7" to the
eight levels in syslog severity order, depends only on the lowering of its
input (case-insensitivity for names), maps the alias "warn" to WARNING,
yields the default INFO on any unrecognized input, and the severities
satisfy EMERGENCY < ALERT < ... < DEBUG. -/
theorem LogLevel_from_string_spec :
    (LogLevel.from_string ("0".toList) = .EMERGENCY ∧
     LogLevel.from_string ("1".toList) = .ALERT ∧
     LogLevel.from_string ("2".toList) = .CRITICAL ∧
     LogLevel.from_string ("3".toList) = .ERROR ∧
     LogLevel.from_string ("4".toList) = .WARNING ∧
     LogLevel.from_string ("5".toList) = .NOTICE ∧
     LogLevel.from_string ("6".toList) = .INFO ∧
     LogLevel.from_string ("7".toList) = .DEBUG) ∧
    (∀ s t : Str, lowerStr s = lowerStr t →
      LogLevel.from_string s = LogLevel.from_string t) ∧
    LogLevel.from_string ("warn".toList) = .WARNING ∧
    (∀ s : Str, ¬ lowerStr s ∈ LogLevel.recognized →
      LogLevel.from_string s = .INFO) ∧
    (LogLevel.EMERGENCY.severity < LogLevel.ALERT.severity ∧
     LogLevel.ALERT.severity < LogLevel.CRITICAL.severity ∧
     LogLevel.CRITICAL.severity < LogLevel.ERROR.severity ∧
     LogLevel.ERROR.severity < LogLevel.WARNING.severity ∧
     LogLevel.WARNING.severity < LogLevel.NOTICE.severity ∧
     LogLevel.NOTICE.severity < LogLevel.INFO.severity ∧
     LogLevel.INFO.severity < LogLevel.DEBUG.severity) := by
  refine ⟨by decide, ?_, by decide, ?_, by decide⟩
  · intro s t h
    simp only [LogLevel.from_string]
    rw [h]
  · intro s hns
    simp only [LogLevel.from_string]
    split_ifs with h1 h2 h3 h4 h5 h6 h7 h8
    all_goals try rfl
    all_goals
      exfalso
      apply hns
      simp only [LogLevel.recognized, List.mem_cons, List.not_mem_nil, or_false]
      tauto

theorem LogLevel_from_string_spec_witness :
    LogLevel.from_string ("ERROR".toList) = LogLevel.from_string ("error".toList) ∧
    LogLevel.from_string ("unknown".toList) = .INFO :=
  ⟨LogLevel_from_string_spec.2.1 ("ERROR".toList) ("error".toList) (by decide),
   LogLevel_from_string_spec.2.2.2.1 ("unknown".toList) (by decide)⟩

theorem best_tally_ge (P : ParserFamily) (lines : List Str) (q : ParserKind) :
    P.tally q lines ≤ P.tally (P.best lines) lines := by
  simp only [ParserFamily.best]
  cases q <;> split_ifs <;> omega

theorem best_tally_gt_earlier (P : ParserFamily) (lines : List Str) (q : ParserKind)
    (hq : q.orderIndex < (P.best lines).orderIndex) :
    P.tally q lines < P.tally (P.best lines) lines := by
  revert hq
  simp only [ParserFamily.best]
  split_ifs <;> cases q <;>
    simp only [ParserKind.orderIndex] <;> intro hq <;> omega

/-- C7: `detect_format` returns no parser on an empty sample or when no
parser holds a strict majority of `can_parse` successes; when it returns a
parser, that parser holds a strict majority, no parser tallies more, and
every parser earlier in the Auto dispatch order (Json, Syslog, Nginx,
Apache) tallies strictly less — so ties break toward the earlier parser; a
non-empty sample accepted line-for-line by the Json parser yields Json; and
conversely, whenever any parser holds a strict majority over a non-empty
sample, a parser (the order-respecting argmax) is returned — detection
answers exactly on the majority samples. -/
theorem detect_format_spec (P : ParserFamily) :
    detect_format P [] = none ∧
    (∀ lines : List Str,
      (∀ k : ParserKind, 2 * P.tally k lines ≤ lines.length) →
      detect_format P lines = none) ∧
    (∀ lines : List Str, ∀ p : ParserKind, detect_format P lines = some p →
      lines.length < 2 * P.tally p lines ∧
      (∀ q : ParserKind, P.tally q lines ≤ P.tally p lines) ∧
      (∀ q : ParserKind, q.orderIndex < p.orderIndex →
        P.tally q lines < P.tally p lines)) ∧
    (∀ lines : List Str, lines ≠ [] → (∀ l ∈ lines, P.jsonCan l = true) →
      detect_format P lines = some ParserKind.json) ∧
    (∀ lines : List Str, ∀ k : ParserKind, lines ≠ [] →
      lines.length < 2 * P.tally k lines →
      detect_format P lines = some (P.best lines)) := by
  refine ⟨rfl, ?_, ?_, ?_, ?_⟩
  · intro lines h
    simp only [detect_format]
    split_ifs with h1 h2
    · rfl
    · exfalso
      have := h (P.best lines)
      omega
    · rfl
  · intro lines p hsome
    simp only [detect_format] at hsome
    by_cases h1 : lines.isEmpty = true
    · rw [if_pos h1] at hsome
      exact absurd hsome (by simp)
    · rw [if_neg h1] at hsome
      by_cases h2 : lines.length < 2 * P.tally (P.best lines) lines
      · rw [if_pos h2] at hsome
        injection hsome with hp
        subst hp
        exact ⟨h2, fun q => best_tally_ge P lines q,
          fun q hq => best_tally_gt_earlier P lines q hq⟩
      · rw [if_neg h2] at hsome
        exact absurd hsome (by simp)
  · intro lines hne hall
    have hjson : P.tally ParserKind.json lines = lines.length := by
      simp only [ParserFamily.tally, ParserFamily.canParse]
      exact List.countP_eq_length.mpr hall
    have hle : ∀ k : ParserKind, P.tally k lines ≤ lines.length :=
      fun k => List.countP_le_length _
    have hbest : P.best lines = ParserKind.json := by
      simp only [ParserFamily.best]
      have ha : ¬ P.tally ParserKind.json lines < P.tally ParserKind.syslog lines := by
        have := hle ParserKind.syslog; omega
      rw [if_neg ha]
      have hb : ¬ P.tally ParserKind.json lines < P.tally ParserKind.nginx lines := by
        have := hle ParserKind.nginx; omega
      rw [if_neg hb]
      have hc : ¬ P.tally ParserKind.json lines < P.tally ParserKind.apache lines := by
        have := hle ParserKind.apache; omega
      rw [if_neg hc]
    have hpos : 0 < lines.length := List.length_pos.mpr hne
    simp only [detect_format, List.isEmpty_iff, hbest]
    rw [if_neg hne, if_pos (by omega)]
  · intro lines k hne hmaj
    have hk := best_tally_ge P lines k
    simp only [detect_format, List.isEmpty_iff]
    rw [if_neg hne, if_pos (by omega)]

theorem detect_format_spec_witness :
    detect_format sampleFamily
      ["\x7ba\x7d".toList, "\x7bb\x7d".toList, "\x7bc\x7d".toList]
      = some ParserKind.json ∧
    detect_format sampleFamily ["Jan 8 x".toList, "Jan 9 y".toList]
      = some ParserKind.syslog := by
  refine ⟨(detect_format_spec sampleFamily).2.2.2.1
    ["\x7ba\x7d".toList, "\x7bb\x7d".toList, "\x7bc\x7d".toList]
    (by decide) (by decide), ?_⟩
  have h := (detect_format_spec sampleFamily).2.2.2.2
    ["Jan 8 x".toList, "Jan 9 y".toList] ParserKind.syslog
    (by decide) (by decide)
  rw [h]
  decide

theorem filter_lines_sublist (eng : RegexEngine) (lines : List Str)
    (term regex : Option Str) (cs : Bool) :
    List.Sublist (filter_lines eng lines term regex cs) lines := by
  unfold filter_lines
  split_ifs with h1 h2 h3 h4
  · exact List.Sublist.refl _
  · cases heq : eng.compile (regex.getD []) cs with
    | some s => simp only [heq]; exact List.filter_sublist _
    | none => simp only [heq]; exact List.nil_sublist _
  · exact List.filter_sublist _
  · exact List.filter_sublist _
  · exact List.Sublist.refl _

theorem routeFilter_sublist (eng : RegexEngine) (lines : List Str)
    (term : Str) (regex : Option Str) (cs : Bool) :
    List.Sublist (routeFilter eng lines term regex cs) lines := by
  unfold routeFilter
  split_ifs
  · exact filter_lines_sublist eng lines none regex cs
  · exact filter_lines_sublist eng lines (some term) none cs
  · exact List.Sublist.refl _

/-- C9: the `get_logs` route applies the search filter after tail
truncation — on every request that passes validation and finds its file,
the response lines are `filter_lines` (dispatched on regex, then term)
applied to the `limit`-line tail of the file, the response count is the
length of that filtered sequence, and every returned line comes from the
final `limit` raw lines. -/
theorem get_logs_pipeline (eng : RegexEngine) (env : GetLogsEnv)
    (filename term : Str) (regex : Option Str) (limit : Nat) (cs : Bool)
    (content : Str)
    (hfn : is_filename_valid filename = true)
    (hsep : (containsSub filename ['/'] || containsSub filename ['\\']) = false)
    (hterm : pyTruthyS term = true → is_search_term_valid term = true)
    (hlim : is_limit_valid limit = true)
    (hfile : env.files (path_join env.log_dir filename) = some content) :
    get_logs eng env filename term regex limit cs
      = RouteResult.ok (routeFilter eng (tail content limit) term regex cs)
          (routeFilter eng (tail content limit) term regex cs).length filename ∧
    List.Sublist (routeFilter eng (tail content limit) term regex cs)
      (tail content limit) := by
  have hterm2 : (pyTruthyS term && !is_search_term_valid term) = false := by
    cases ht : pyTruthyS term
    · simp
    · simp [hterm ht]
  refine ⟨?_, routeFilter_sublist eng (tail content limit) term regex cs⟩
  simp only [get_logs, hfn, hsep, hterm2, hlim, Bool.not_true, Bool.false_eq_true,
    if_false, hfile, routeFilter]

theorem get_logs_pipeline_witness :
    get_logs literalEngine routeEnv ("app.log".toList) ("error".toList)
      none 2 true
      = RouteResult.ok ["error c".toList] 1 ("app.log".toList) := by
  have h := get_logs_pipeline literalEngine routeEnv ("app.log".toList)
    ("error".toList) none 2 true ("a\nb\nerror c".toList)
    (by decide) (by decide) (fun _ => by decide) (by decide) (by decide)
  rw [h.1]
  decide

theorem splitSep_ne_nil (sep : Char) (s : Str) : splitSep sep s ≠ [] := by
  induction s with
  | nil => simp [splitSep]
  | cons c rest ih =>
    simp only [splitSep]
    split_ifs with h
    · simp
    · cases hsr : splitSep sep rest with
      | nil => exact absurd hsr ih
      | cons l ls => simp

theorem getLast?_cons_ne {α : Type} (a : α) (l : List α) (h : l ≠ []) :
    (a :: l).getLast? = l.getLast? := by
  cases l with
  | nil => exact absurd rfl h
  | cons b bs => exact List.getLast?_cons_cons

theorem splitSep_singleton (sep : Char) : ∀ s t : Str,
    splitSep sep s = [t] → t = s := by
  intro s
  induction s with
  | nil =>
    intro t h
    simp only [splitSep] at h
    injection h with h1 h2
    exact h1.symm
  | cons c rest ih =>
    intro t h
    simp only [splitSep] at h
    split_ifs at h with hc
    · injection h with h1 h2
      exact absurd h2 (splitSep_ne_nil sep rest)
    · cases hsr : splitSep sep rest with
      | nil => exact absurd hsr (splitSep_ne_nil sep rest)
      | cons l ls =>
        rw [hsr] at h
        injection h with h1 h2
        subst h2
        have hl := ih l hsr
        rw [← h1, hl]


theorem splitSep_getLast_iff (sep : Char) : ∀ s : Str,
    (splitSep sep s).getLast? = some [] ↔ (s = [] ∨ s.getLast? = some sep) := by
  intro s
  induction s with
  | nil => simp [splitSep]
  | cons c rest ih =>
    simp only [splitSep]
    by_cases hc : c = sep
    · rw [if_pos hc, getLast?_cons_ne _ _ (splitSep_ne_nil sep rest), ih]
      cases rest with
      | nil => simp [hc]
      | cons d r2 => simp [List.getLast?_cons_cons]
    · rw [if_neg hc]
      cases hsr : splitSep sep rest with
      | nil => exact absurd hsr (splitSep_ne_nil sep rest)
      | cons t ts =>
        cases ts with
        | nil =>
          have ht : t = rest := splitSep_singleton sep rest t hsr
          subst ht
          cases t with
          | nil => simp [hc]
          | cons d r2 =>
            rw [hsr] at ih
            simp at ih
            simp [List.getLast?_cons_cons, ih]
        | cons u us =>
          have hrest : rest ≠ [] := by
            intro hr
            subst hr
            simp [splitSep] at hsr
          rw [getLast?_cons_ne (c :: t) (u :: us) (List.cons_ne_nil u us)]
          rw [← getLast?_cons_ne t (u :: us) (List.cons_ne_nil u us)]
          rw [← hsr, ih]
          rw [getLast?_cons_ne c rest hrest]
          simp [hrest]

theorem getLast?_drop {α : Type} (l : List α) : ∀ n : Nat, n < l.length →
    (l.drop n).getLast? = l.getLast? := by
  induction l with
  | nil => intro n h; simp at h
  | cons a as ih =>
    intro n h
    cases n with
    | zero => rfl
    | succ m =>
      have hm : m < as.length := by simpa using h
      rw [List.drop_succ_cons, ih m hm]
      exact (getLast?_cons_ne a as (by intro he; rw [he] at hm; simp at hm)).symm

theorem fileLines_eq_splitSep (content : Str)
    (h : (splitSep '\n' content).getLast? ≠ some []) :
    fileLines content = splitSep '\n' content := by
  unfold fileLines
  cases hg : (splitSep '\n' content).getLast? with
  | none => simp [hg]
  | some l =>
    cases l with
    | nil => exact absurd hg h
    | cons a as => simp [hg]

/-- C1: for every file content and every limit in [1, 1000], `tail` returns
the last `limit` logical lines in file order — all lines when the file has
at most `limit` lines, the final `limit` lines otherwise, an empty sequence
for an empty file, and no trailing synthetic empty line when the content
does not end with a newline (the final returned line is then never the
empty line). -/
theorem tail_spec (content : Str) (limit : Nat)
    (h1 : 1 ≤ limit) (h2 : limit ≤ 1000) :
    (tail content limit).length = min (fileLines content).length limit ∧
    List.IsSuffix (tail content limit) (fileLines content) ∧
    ((fileLines content).length ≤ limit → tail content limit = fileLines content) ∧
    (limit < (fileLines content).length →
      tail content limit
        = (fileLines content).drop ((fileLines content).length - limit) ∧
      (tail content limit).length = limit) ∧
    (content = [] → tail content limit = []) ∧
    (content ≠ [] → content.getLast? ≠ some '\n' →
      tail content limit ≠ [] ∧ (tail content limit).getLast? ≠ some []) := by
  refine ⟨?_, ?_, ?_, ?_, ?_, ?_⟩
  · simp only [tail, List.length_drop]
    omega
  · exact List.drop_suffix _ _
  · intro hK
    simp [tail, Nat.sub_eq_zero_of_le hK]
  · intro hK
    refine ⟨rfl, ?_⟩
    simp only [tail, List.length_drop]
    omega
  · rintro rfl
    simp [tail, show fileLines [] = [] from rfl, List.drop_nil]
  · intro hne hlast
    have hg : (splitSep '\n' content).getLast? ≠ some [] := by
      intro hcontra
      rcases (splitSep_getLast_iff '\n' content).mp hcontra with h | h
      · exact hne h
      · exact hlast h
    have hfl : fileLines content = splitSep '\n' content :=
      fileLines_eq_splitSep content hg
    have hKpos : 0 < (fileLines content).length := by
      rw [hfl]
      cases hsr : splitSep '\n' content with
      | nil => exact absurd hsr (splitSep_ne_nil '\n' content)
      | cons t ts => simp
    constructor
    · intro hnil
      have hlen : (tail content limit).length
          = (fileLines content).length - ((fileLines content).length - limit) := by
        simp [tail, List.length_drop]
      rw [hnil] at hlen
      simp at hlen
      omega
    · have hdrop : ((fileLines content).drop
          ((fileLines content).length - limit)).getLast?
          = (fileLines content).getLast? :=
        getLast?_drop _ _ (by omega)
      show (tail content limit).getLast? ≠ some []
      rw [show tail content limit
        = (fileLines content).drop ((fileLines content).length - limit) from rfl,
        hdrop, hfl]
      exact hg

theorem tail_spec_witness :
    tail ("log 0\nlog 1\nlog 2".toList) 2
      = ["log 1".toList, "log 2".toList] := by
  have h := (tail_spec ("log 0\nlog 1\nlog 2".toList) 2
    (by decide) (by decide)).2.2.2.1 (by decide)
  rw [h.1]
  decide
